import Mathlib

/-!
Shallow embedding of `src/root.rs` of the seismic-trie repository.

The file models the four root-computation drivers and their supporting pure
functions. Machine integers (`usize`, `U256`, the bytes of a `B256`) are
modelled as `Nat`; byte strings and nibble paths as `List Nat`. The trie
engine (`crate::HashBuilder`) and the reserved constant
(`crate::EMPTY_ROOT_HASH`) are code of this repository that is not part of
`src/`; they are modelled from the spec (§6): `add_leaf` records a leaf and
`root` finalizes, so a root is represented by the finalized leaf sequence,
of which the real 32-byte hash is a function.
-/

/-- Strict lexicographic order on byte (or nibble) strings, as `Bool`:
a proper prefix is smaller, otherwise the first differing element decides. -/
def lexLt : List Nat → List Nat → Bool
  | [], [] => false
  | [], _ :: _ => true
  | _ :: _, [] => false
  | x :: xs, y :: ys => if x < y then true else if x = y then lexLt xs ys else false

/-- Non-strict lexicographic order on byte (or nibble) strings. -/
def lexLe (a b : List Nat) : Bool := lexLt a b || decide (a = b)

/-- Model of `nybbles::Nibbles::unpack`: each byte becomes its high nibble
followed by its low nibble. -/
def Nibbles.unpack (bs : List Nat) : List Nat :=
  bs.flatMap (fun b => [b / 16, b % 16])

/-- Number of base-256 digits of `n` (0 for `n = 0`): the length of the
minimal big-endian byte encoding of `n`. -/
def beLen (n : Nat) : Nat := if n = 0 then 0 else Nat.log 256 n + 1

/-- Big-endian base-256 digits of `n` written with exactly `w` digits,
most significant first. -/
def beFixed : Nat → Nat → List Nat
  | 0, _ => []
  | w + 1, n => n / 256 ^ w :: beFixed w (n % 256 ^ w)

/-- Model of `alloy_rlp::encode_fixed_size` on an unsigned integer
(`usize` index or `U256` storage value): the canonical RLP encoding of the
integer. Zero encodes as the empty-string header `0x80`; a value below
`0x80` encodes as that single byte; otherwise a `0x80 + length` header is
followed by the minimal big-endian bytes. -/
def rlpNat (n : Nat) : List Nat :=
  if n = 0 then [0x80]
  else if n < 0x80 then [n]
  else (0x80 + beLen n) :: beFixed (beLen n) n

/-- Written from the spec's words (§4.4, §6), for comparison with the code:
the "minimal-width big-endian byte encoding" of an unsigned integer, with
no RLP header and the empty string for zero. -/
def minBeBytes (n : Nat) : List Nat := beFixed (beLen n) n

/-- One leaf handed to the trie engine: a nibble path, a value byte string
and the privacy flag. -/
structure Leaf where
  path : List Nat
  value : List Nat
  is_private : Bool
deriving DecidableEq, Repr

/-- Modelled from the spec: the trie engine finalizes into a Merkle root
that is a function of the inserted leaf sequence; the hashing itself is an
out-of-scope collaborator, so a root is represented by that sequence. -/
abbrev Root : Type := List Leaf

/-- Modelled from the spec: the reserved constant for the root of zero
leaves (`crate::EMPTY_ROOT_HASH`, not under `src/`). -/
def EMPTY_ROOT_HASH : Root := []

/-- Modelled from the spec: the trie engine (`crate::HashBuilder`, not
under `src/`) accumulates the leaves passed to `add_leaf`. -/
structure HashBuilder where
  leaves : List Leaf

/-- Model of `HashBuilder::default()`: no leaves inserted yet. -/
def HashBuilder.default : HashBuilder := ⟨[]⟩

/-- Modelled from the spec: `add_leaf(path, value, is_private)` records one
leaf after the ones already inserted. -/
def HashBuilder.add_leaf (hb : HashBuilder) (path value : List Nat) (isPriv : Bool) :
    HashBuilder :=
  ⟨hb.leaves ++ [⟨path, value, isPriv⟩]⟩

/-- Modelled from the spec: `root()` finalizes the engine over the leaf
sequence inserted so far. -/
def HashBuilder.root (hb : HashBuilder) : Root := hb.leaves

/-- Model of `adjust_index_for_rlp` from `src/root.rs`. -/
def adjust_index_for_rlp (i len : Nat) : Nat :=
  if i > 0x7f then i
  else if i = 0x7f ∨ i + 1 = len then 0
  else i + 1

/-- Model of the `encode(&items[index], &mut value_buffer)` step of
`ordered_trie_root_with_encoder`: the caller's `FnMut(&T, &mut Vec<u8>)`
encoder writes into a buffer cleared before each use, so it is a pure
function `α → List Nat`; the out-of-range arm of the `items[index]`
indexing is unreachable (in Rust it would panic). -/
def orderedLeafValue {α : Type} (items : List α) (encode : α → List Nat) (index : Nat) :
    List Nat :=
  match items.get? index with
  | some item => encode item
  | none => []

/-- Model of `ordered_trie_root_with_encoder` from `src/root.rs`. -/
def ordered_trie_root_with_encoder {α : Type} (items : List α) (encode : α → List Nat) :
    Root :=
  if items.isEmpty then EMPTY_ROOT_HASH
  else
    let items_len := items.length
    ((List.range items_len).foldl
      (fun hb i =>
        let index := adjust_index_for_rlp i items_len
        let index_buffer := rlpNat index
        let value_buffer := orderedLeafValue items encode index
        hb.add_leaf (Nibbles.unpack index_buffer) value_buffer false)
      HashBuilder.default).root

/-- Model of `ordered_trie_root` from `src/root.rs`; the `Encodable`
instance of the item type is the encoder. -/
def ordered_trie_root {α : Type} (items : List α) (encode : α → List Nat) : Root :=
  ordered_trie_root_with_encoder items encode

/-- Model of the `StorageValue` capability of `src/root.rs`: either a bare
`U256` or a `(U256, bool)` pair. -/
inductive StorageValue : Type where
  | u256 (v : Nat)
  | pair (v : Nat) (flag : Bool)
deriving DecidableEq, Repr

/-- Model of `StorageValue::value`. -/
def StorageValue.value : StorageValue → Nat
  | .u256 v => v
  | .pair v _ => v

/-- Model of `StorageValue::is_private`: defaulted to `false` for a bare
`U256`, the stored flag for a pair. -/
def StorageValue.is_private : StorageValue → Bool
  | .u256 _ => false
  | .pair _ f => f

/-- Model of `storage_root` from `src/root.rs`: keys are the 32 bytes of
the hashed slot, values the RLP encoding of the stored integer, privacy
flag the entry's own. -/
def storage_root (storage : List (Nat × StorageValue)) : Root :=
  (storage.foldl
    (fun hb e =>
      hb.add_leaf (Nibbles.unpack (beFixed 32 e.1)) (rlpNat e.2.value) e.2.is_private)
    HashBuilder.default).root

/-- Model of `Vec::sort_unstable_by_key(|(key, _)| *key)`: sort ascending
comparing keys only. -/
def sortByKey {β : Type} (l : List (Nat × β)) : List (Nat × β) :=
  l.mergeSort (fun a b => decide (a.1 ≤ b.1))

/-- Model of `storage_root_unsorted` from `src/root.rs`. -/
def storage_root_unsorted (storage : List (Nat × StorageValue)) : Root :=
  storage_root (sortByKey storage)

/-- Model of `storage_root_unhashed` from `src/root.rs`; `keccak256` (an
external collaborator) is a parameter. -/
def storage_root_unhashed (keccak256 : Nat → Nat) (storage : List (Nat × StorageValue)) :
    Root :=
  storage_root_unsorted (storage.map (fun e => (keccak256 e.1, e.2)))

/-- Model of `state_root` from `src/root.rs`; the composite of the
`Into<TrieAccount>` conversion and the canonical RLP serializer (both
external collaborators) is the parameter `encodeAccount`. The privacy flag
is hard-coded `false`. -/
def state_root {A : Type} (encodeAccount : A → List Nat) (state : List (Nat × A)) :
    Root :=
  (state.foldl
    (fun hb p =>
      hb.add_leaf (Nibbles.unpack (beFixed 32 p.1)) (encodeAccount p.2) false)
    HashBuilder.default).root

/-- Model of `state_root_unsorted` from `src/root.rs`. -/
def state_root_unsorted {A : Type} (encodeAccount : A → List Nat)
    (state : List (Nat × A)) : Root :=
  state_root encodeAccount (sortByKey state)

/-- Model of `state_root_unhashed` from `src/root.rs`. -/
def state_root_unhashed {A : Type} (keccak256 : Nat → Nat)
    (encodeAccount : A → List Nat) (state : List (Nat × A)) : Root :=
  state_root_unsorted encodeAccount (state.map fun p => (keccak256 p.1, p.2))

/-- Model of Rust's `Clone::clone` on an account value: by the `Clone`
contract the clone is equal to the original. -/
def cloneAccount {A : Type} (a : A) : A := a

/-- Model of `state_root_ref_unhashed` from `src/root.rs`: each borrowed
account is cloned at the canonical-conversion step. -/
def state_root_ref_unhashed {A : Type} (keccak256 : Nat → Nat)
    (encodeAccount : A → List Nat) (state : List (Nat × A)) : Root :=
  state_root_unsorted encodeAccount (state.map fun p => (keccak256 p.1, cloneAccount p.2))

/-- Adjacent strict ascent of the leaf paths of a finalized sequence. -/
def pathsStrictAscending : List Leaf → Bool
  | [] => true
  | [_] => true
  | a :: b :: rest => lexLt a.path b.path && pathsStrictAscending (b :: rest)

/-- Modelled from the spec: the trie engine (`crate::HashBuilder`, not
under `src/`) aborts the process when consecutive leaves are not presented
in strictly ascending path order (§7); the abort is modelled as `none`, a
completed root as `some`. -/
def storage_root_checked (storage : List (Nat × StorageValue)) : Option Root :=
  let r := storage_root storage
  if pathsStrictAscending r then some r else none

/-! ### Characterizations of the drivers as leaf-sequence maps -/

/-- Folding `add_leaf` over a list appends one leaf per element. -/
theorem foldl_add_leaf_leaves {ι : Type} (p v : ι → List Nat) (q : ι → Bool) :
    ∀ (l : List ι) (hb : HashBuilder),
      (l.foldl (fun hb i => hb.add_leaf (p i) (v i) (q i)) hb).leaves
        = hb.leaves ++ l.map (fun i => ⟨p i, v i, q i⟩) := by
  intro l
  induction l with
  | nil => intro hb; simp
  | cons x xs ih =>
      intro hb
      rw [List.foldl_cons, ih]
      simp [HashBuilder.add_leaf]

/-- The storage-root driver produces one leaf per entry, in input order. -/
theorem storage_root_eq_map (storage : List (Nat × StorageValue)) :
    storage_root storage
      = storage.map (fun e =>
          ⟨Nibbles.unpack (beFixed 32 e.1), rlpNat e.2.value, e.2.is_private⟩) := by
  unfold storage_root HashBuilder.root
  rw [foldl_add_leaf_leaves (fun e => Nibbles.unpack (beFixed 32 e.1))
    (fun e => rlpNat e.2.value) (fun e => e.2.is_private) storage HashBuilder.default]
  simp [HashBuilder.default]

/-- The state-root driver produces one leaf per entry, in input order. -/
theorem state_root_eq_map {A : Type} (encodeAccount : A → List Nat)
    (state : List (Nat × A)) :
    state_root encodeAccount state
      = state.map (fun p =>
          ⟨Nibbles.unpack (beFixed 32 p.1), encodeAccount p.2, false⟩) := by
  unfold state_root HashBuilder.root
  rw [foldl_add_leaf_leaves (fun p => Nibbles.unpack (beFixed 32 p.1))
    (fun p => encodeAccount p.2) (fun _ => false) state HashBuilder.default]
  simp [HashBuilder.default]

/-- The ordered driver produces one leaf per iteration index, with both the
key and the value determined by the adjusted index. -/
theorem ordered_trie_root_with_encoder_eq_map {α : Type} (items : List α)
    (encode : α → List Nat) :
    ordered_trie_root_with_encoder items encode
      = (List.range items.length).map (fun i =>
          ⟨Nibbles.unpack (rlpNat (adjust_index_for_rlp i items.length)),
           orderedLeafValue items encode (adjust_index_for_rlp i items.length),
           false⟩) := by
  unfold ordered_trie_root_with_encoder
  by_cases h : items.isEmpty
  · have : items = [] := List.isEmpty_iff.mp h
    subst this
    simp [EMPTY_ROOT_HASH]
  · simp only [h, if_neg, Bool.false_eq_true, not_false_iff]
    unfold HashBuilder.root
    rw [foldl_add_leaf_leaves
      (fun i => Nibbles.unpack (rlpNat (adjust_index_for_rlp i items.length)))
      (fun i => orderedLeafValue items encode (adjust_index_for_rlp i items.length))
      (fun _ => false) (List.range items.length) HashBuilder.default]
    simp [HashBuilder.default]

/-! ### Facts about the index adjustment -/

/-- The adjusted index of an in-range index is in range. -/
theorem adjust_index_lt (i len : Nat) (h : i < len) :
    adjust_index_for_rlp i len < len := by
  unfold adjust_index_for_rlp
  split_ifs <;> omega

/-- The index adjustment is injective on the in-range indices. -/
theorem adjust_index_inj (len a b : Nat) (ha : a < len) (hb : b < len)
    (h : adjust_index_for_rlp a len = adjust_index_for_rlp b len) : a = b := by
  unfold adjust_index_for_rlp at h
  split_ifs at h <;> omega

/-- In range, `orderedLeafValue` is the encoding of the indexed item. -/
theorem orderedLeafValue_eq_get {α : Type} (items : List α) (encode : α → List Nat)
    (j : Nat) (h : j < items.length) :
    orderedLeafValue items encode j = encode (items.get ⟨j, h⟩) := by
  unfold orderedLeafValue
  rw [List.get?_eq_get h]

/-! ### Basic facts about the lexicographic orders -/

/-- A nonempty list is above the empty list. -/
theorem lexLt_nil_cons (y : Nat) (ys : List Nat) : lexLt [] (y :: ys) = true := rfl

/-- A smaller head decides the comparison. -/
theorem lexLt_cons_lt {a b : Nat} (xs ys : List Nat) (h : a < b) :
    lexLt (a :: xs) (b :: ys) = true := by
  simp [lexLt, h]

/-- Equal heads reduce the comparison to the tails. -/
theorem lexLt_cons_eq (a : Nat) (xs ys : List Nat) :
    lexLt (a :: xs) (a :: ys) = lexLt xs ys := by
  simp [lexLt]

/-- Fixed-width big-endian digit strings of positive width compare like the
numbers they encode. -/
theorem beFixed_lexLt_of_lt :
    ∀ (w a b : Nat), 1 ≤ w → a < b → lexLt (beFixed w a) (beFixed w b) = true := by
  intro w
  induction w with
  | zero => intro a b h _; omega
  | succ w ih =>
      intro a b _ hab
      have hq : a / 256 ^ w ≤ b / 256 ^ w := Nat.div_le_div_right (Nat.le_of_lt hab)
      show lexLt (a / 256 ^ w :: beFixed w (a % 256 ^ w))
        (b / 256 ^ w :: beFixed w (b % 256 ^ w)) = true
      rcases Nat.lt_or_ge (a / 256 ^ w) (b / 256 ^ w) with hlt | hge
      · exact lexLt_cons_lt _ _ hlt
      · have heq : a / 256 ^ w = b / 256 ^ w := Nat.le_antisymm hq hge
        have hmod : a % 256 ^ w < b % 256 ^ w := by
          obtain ⟨t, h1, h2⟩ : ∃ t, t + a % 256 ^ w = a ∧ t + b % 256 ^ w = b := by
            refine ⟨256 ^ w * (b / 256 ^ w), ?_, ?_⟩
            · rw [← heq]; exact Nat.div_add_mod a (256 ^ w)
            · exact Nat.div_add_mod b (256 ^ w)
          omega
        rcases Nat.eq_zero_or_pos w with h0 | hw
        · subst h0
          simp only [pow_zero, Nat.div_one] at heq
          omega
        · rw [heq, lexLt_cons_eq]
          exact ih _ _ hw hmod

/-! ### Facts about the byte length and the integer RLP encoding -/

/-- A positive number has a positive byte length. -/
theorem beLen_pos {n : Nat} (h : 1 ≤ n) : 1 ≤ beLen n := by
  unfold beLen
  split_ifs with h0
  · omega
  · omega

/-- The byte length is monotone. -/
theorem beLen_mono {a b : Nat} (h : a ≤ b) : beLen a ≤ beLen b := by
  unfold beLen
  split_ifs with h1 h2
  · omega
  · omega
  · omega
  · have := Nat.log_mono_right (b := 256) h
    omega

/-- Every number fits in its byte length. -/
theorem lt_pow_beLen (n : Nat) : n < 256 ^ beLen n := by
  unfold beLen
  split_ifs with h0
  · subst h0; simp
  · exact Nat.lt_pow_succ_log_self (by norm_num) n

/-- Unfolding of `rlpNat` for values at least 128. -/
theorem rlpNat_big {n : Nat} (h : 128 ≤ n) :
    rlpNat n = (0x80 + beLen n) :: beFixed (beLen n) n := by
  have h1 : ¬ n = 0 := by omega
  have h2 : ¬ n < 0x80 := by omega
  simp [rlpNat, h1, h2]

/-- Unfolding of `rlpNat` for single-byte values. -/
theorem rlpNat_small {n : Nat} (h1 : 1 ≤ n) (h2 : n ≤ 127) : rlpNat n = [n] := by
  have h3 : ¬ n = 0 := by omega
  have h4 : n < 0x80 := by omega
  simp [rlpNat, h3, h4]

/-- RLP encoding of zero is the empty-string header. -/
theorem rlpNat_zero : rlpNat 0 = [0x80] := rfl

/-- RLP encodings of integers at least 128 compare like the integers. -/
theorem rlpNat_lexLt_big {a b : Nat} (ha : 128 ≤ a) (hab : a < b) :
    lexLt (rlpNat a) (rlpNat b) = true := by
  rw [rlpNat_big ha, rlpNat_big (by omega : 128 ≤ b)]
  have hle : beLen a ≤ beLen b := beLen_mono (Nat.le_of_lt hab)
  rcases Nat.lt_or_ge (beLen a) (beLen b) with hlt | hge
  · exact lexLt_cons_lt _ _ (by omega)
  · have heq : beLen a = beLen b := by omega
    rw [heq, lexLt_cons_eq]
    exact beFixed_lexLt_of_lt _ _ _ (beLen_pos (by omega)) hab

/-- RLP encoding of zero is strictly below that of any integer of at
least 128: the latter starts with a header byte strictly above `0x80`. -/
theorem rlpNat_zero_lexLt_big {b : Nat} (hb : 128 ≤ b) :
    lexLt (rlpNat 0) (rlpNat b) = true := by
  rw [rlpNat_zero, rlpNat_big hb]
  exact lexLt_cons_lt _ _ (by have := beLen_pos (show 1 ≤ b by omega); omega)

/-- Unpacking a nonempty byte string starts with the two nibbles of its
first byte. -/
theorem unpack_cons (b : Nat) (bs : List Nat) :
    Nibbles.unpack (b :: bs) = b / 16 :: b % 16 :: Nibbles.unpack bs := by
  simp [Nibbles.unpack]

/-- Unpacking bytes into nibbles preserves strict lexicographic order. -/
theorem unpack_lexLt_of_lexLt :
    ∀ (xs ys : List Nat), lexLt xs ys = true →
      lexLt (Nibbles.unpack xs) (Nibbles.unpack ys) = true := by
  intro xs
  induction xs with
  | nil =>
      intro ys h
      cases ys with
      | nil => simp [lexLt] at h
      | cons y ys => rw [unpack_cons]; exact lexLt_nil_cons _ _
  | cons x xs ih =>
      intro ys h
      cases ys with
      | nil => simp [lexLt] at h
      | cons y ys =>
          rw [unpack_cons, unpack_cons]
          by_cases hxy : x < y
          · rcases (by omega :
                x / 16 < y / 16 ∨ (x / 16 = y / 16 ∧ x % 16 < y % 16)) with h1 | ⟨h1, h2⟩
            · exact lexLt_cons_lt _ _ h1
            · rw [h1, lexLt_cons_eq]
              exact lexLt_cons_lt _ _ h2
          · by_cases hxy2 : x = y
            · subst hxy2
              have h' : lexLt xs ys = true := by
                rw [← lexLt_cons_eq x xs ys]; exact h
              rw [lexLt_cons_eq, lexLt_cons_eq]
              exact ih ys h'
            · simp [lexLt, hxy, hxy2] at h

/-- Key order transfers to the nibble paths of 32-byte keys. -/
theorem unpack_beFixed_le_of_le {k1 k2 : Nat} (h : k1 ≤ k2) :
    lexLe (Nibbles.unpack (beFixed 32 k1)) (Nibbles.unpack (beFixed 32 k2)) = true := by
  rcases Nat.lt_or_ge k1 k2 with hlt | hge
  · have hb := beFixed_lexLt_of_lt 32 k1 k2 (by omega) hlt
    have := unpack_lexLt_of_lexLt _ _ hb
    simp [lexLe, this]
  · have : k1 = k2 := by omega
    subst this
    simp [lexLe]

/-! ### Sortedness facts -/

/-- The sort used by the `_unsorted` tiers orders entries by key. -/
theorem sortByKey_pairwise_key {β : Type} (l : List (Nat × β)) :
    List.Pairwise (fun a b : Nat × β => a.1 ≤ b.1) (sortByKey l) := by
  have htrans : ∀ a b c : Nat × β, decide (a.1 ≤ b.1) = true →
      decide (b.1 ≤ c.1) = true → decide (a.1 ≤ c.1) = true := by
    intro a b c h1 h2
    simp only [decide_eq_true_eq] at h1 h2 ⊢
    omega
  have htotal : ∀ a b : Nat × β, (decide (a.1 ≤ b.1) || decide (b.1 ≤ a.1)) = true := by
    intro a b
    simp only [Bool.or_eq_true, decide_eq_true_eq]
    omega
  have hs := List.sorted_mergeSort htrans htotal l
  exact List.Pairwise.imp (fun h => by simpa using h) hs

/-- The sort is a permutation of its input. -/
theorem sortByKey_perm {β : Type} (l : List (Nat × β)) : (sortByKey l).Perm l :=
  List.mergeSort_perm l _

/-- Consecutive trie keys produced by the index adjustment are strictly
ascending in byte order. -/
theorem adjust_key_lexLt (n i : Nat) (h : i + 1 < n) :
    lexLt (rlpNat (adjust_index_for_rlp i n))
      (rlpNat (adjust_index_for_rlp (i + 1) n)) = true := by
  unfold adjust_index_for_rlp
  by_cases h1 : i > 0x7f
  · have h2 : i + 1 > 0x7f := by omega
    simp only [if_pos h1, if_pos h2]
    exact rlpNat_lexLt_big (by omega) (by omega)
  · by_cases h3 : i = 0x7f ∨ i + 1 = n
    · have hi : i = 0x7f := by omega
      have h2 : i + 1 > 0x7f := by omega
      simp only [if_neg h1, if_pos h3, if_pos h2]
      exact rlpNat_zero_lexLt_big (by omega)
    · have hi : i ≤ 126 := by omega
      have h2 : ¬ i + 1 > 0x7f := by omega
      simp only [if_neg h1, if_neg h3, if_neg h2]
      by_cases h4 : i + 1 = 0x7f ∨ i + 1 + 1 = n
      · simp only [if_pos h4]
        rw [rlpNat_small (by omega) (by omega), rlpNat_zero]
        exact lexLt_cons_lt _ _ (by omega)
      · simp only [if_neg h4]
        rw [rlpNat_small (by omega) (by omega), rlpNat_small (by omega) (by omega)]
        exact lexLt_cons_lt _ _ (by omega)

/-! ### Claim C2 -/

/-- C2: `adjust_index_for_rlp(i, len)` equals `i` when `i > 127`, `0` when
`i <= 127` and (`i == 127` or `i + 1 == len`), and `i + 1` otherwise; for
all `len` in `[1, 128]` and `i` in `[0, len)` the result is `0` iff
(`i == len - 1` or `i == 127`) and otherwise equals `i + 1`; the function
is total and deterministic, depending only on its two arguments. -/
theorem C2_adjust_index_formula :
    (∀ i len : Nat, adjust_index_for_rlp i len =
      if i > 127 then i else if i = 127 ∨ i + 1 = len then 0 else i + 1) ∧
    (∀ len i : Nat, 1 ≤ len → len ≤ 128 → i < len →
      ((adjust_index_for_rlp i len = 0 ↔ (i = len - 1 ∨ i = 127)) ∧
       (¬ (i = len - 1 ∨ i = 127) → adjust_index_for_rlp i len = i + 1))) := by
  constructor
  · intro i len
    rfl
  · intro len i h1 h2 h3
    unfold adjust_index_for_rlp
    have h4 : ¬ i > 0x7f := by omega
    rw [if_neg h4]
    by_cases h5 : i = 0x7f ∨ i + 1 = len
    · rw [if_pos h5]
      refine ⟨⟨fun _ => by omega, fun _ => rfl⟩, fun h6 => by omega⟩
    · rw [if_neg h5]
      refine ⟨⟨fun h6 => by omega, fun h6 => by omega⟩, fun _ => rfl⟩

/-- Witness for C2 at concrete inputs: the last index of a full
single-byte-range collection adjusts to 0, an interior index increments. -/
theorem C2_adjust_index_formula_witness :
    adjust_index_for_rlp 127 128 = 0 ∧ adjust_index_for_rlp 5 10 = 6 := by
  constructor
  · exact (C2_adjust_index_formula.2 128 127 (by decide) (by decide) (by decide)).1.mpr
      (Or.inl (by decide))
  · exact (C2_adjust_index_formula.2 10 5 (by decide) (by decide) (by decide)).2
      (by decide)

/-! ### Claim C3 -/

/-- Nibble paths of the ordered driver ascend strictly. -/
theorem ordered_paths_chain {α : Type} (items : List α) (encode : α → List Nat) :
    List.Chain' (fun a b => lexLt a b = true)
      ((ordered_trie_root_with_encoder items encode).map Leaf.path) := by
  rw [ordered_trie_root_with_encoder_eq_map, List.map_map, List.chain'_map,
    List.chain'_iff_get]
  intro i h
  simp only [List.length_range] at h
  rw [List.get_range, List.get_range]
  exact unpack_lexLt_of_lexLt _ _ (adjust_key_lexLt items.length i (by omega))

/-- Nibble paths of a key-sorted entry list ascend weakly. -/
theorem sorted_entry_paths_chain {β : Type} (l : List (Nat × β)) :
    List.Chain' (fun a b => lexLe a b = true)
      ((sortByKey l).map fun e => Nibbles.unpack (beFixed 32 e.1)) := by
  refine List.Pairwise.chain' ?_
  rw [List.pairwise_map]
  exact List.Pairwise.imp (fun h => unpack_beFixed_le_of_le h) (sortByKey_pairwise_key l)

/-- C3: the ordered driver's key sequence `RLP(adjust_index_for_rlp(i, n))`
is strictly ascending in byte order and its leaf nibble paths are strictly
ascending; the `_unsorted` storage and state drivers (and the `_unhashed`
tiers built on them) present their leaves in non-decreasing nibble-path
order, for arbitrary input order, because they sort by key first. -/
theorem C3_leaves_presented_in_order :
    (∀ n : Nat, List.Chain' (fun a b => lexLt a b = true)
        ((List.range n).map fun i => rlpNat (adjust_index_for_rlp i n))) ∧
    (∀ (α : Type) (items : List α) (encode : α → List Nat),
        List.Chain' (fun a b => lexLt a b = true)
          ((ordered_trie_root_with_encoder items encode).map Leaf.path)) ∧
    (∀ storage : List (Nat × StorageValue),
        List.Chain' (fun a b => lexLe a b = true)
          ((storage_root_unsorted storage).map Leaf.path)) ∧
    (∀ (keccak256 : Nat → Nat) (storage : List (Nat × StorageValue)),
        List.Chain' (fun a b => lexLe a b = true)
          ((storage_root_unhashed keccak256 storage).map Leaf.path)) ∧
    (∀ (A : Type) (encodeAccount : A → List Nat) (state : List (Nat × A)),
        List.Chain' (fun a b => lexLe a b = true)
          ((state_root_unsorted encodeAccount state).map Leaf.path)) ∧
    (∀ (A : Type) (keccak256 : Nat → Nat) (encodeAccount : A → List Nat)
        (state : List (Nat × A)),
        List.Chain' (fun a b => lexLe a b = true)
          ((state_root_unhashed keccak256 encodeAccount state).map Leaf.path)) := by
  refine ⟨?_, ?_, ?_, ?_, ?_, ?_⟩
  · intro n
    rw [List.chain'_map, List.chain'_iff_get]
    intro i h
    simp only [List.length_range] at h
    rw [List.get_range, List.get_range]
    exact adjust_key_lexLt n i (by omega)
  · intro α items encode
    exact ordered_paths_chain items encode
  · intro storage
    unfold storage_root_unsorted
    rw [storage_root_eq_map, List.map_map]
    exact sorted_entry_paths_chain storage
  · intro keccak256 storage
    unfold storage_root_unhashed storage_root_unsorted
    rw [storage_root_eq_map, List.map_map]
    exact sorted_entry_paths_chain _
  · intro A encodeAccount state
    unfold state_root_unsorted
    rw [state_root_eq_map, List.map_map]
    exact sorted_entry_paths_chain state
  · intro A keccak256 encodeAccount state
    unfold state_root_unhashed state_root_unsorted
    rw [state_root_eq_map, List.map_map]
    exact sorted_entry_paths_chain _

/-! ### Claim C1 -/

/-- The leaf recorded at iteration `i` of the ordered driver: key is the
nibble path of the RLP of the adjusted index, and the value is the encoding
of the item at the adjusted index. -/
theorem ordered_get_leaf {α : Type} (items : List α) (encode : α → List Nat)
    (i : Nat) (h : i < items.length) :
    (ordered_trie_root_with_encoder items encode).get? i
      = some ⟨Nibbles.unpack (rlpNat (adjust_index_for_rlp i items.length)),
          encode (items.get ⟨adjust_index_for_rlp i items.length,
            adjust_index_lt i items.length h⟩),
          false⟩ := by
  rw [ordered_trie_root_with_encoder_eq_map, List.get?_map, List.get?_range h,
    Option.map_some']
  rw [orderedLeafValue_eq_get items encode _ (adjust_index_lt i items.length h)]

/-- Counterexample to C1 at the concrete input `items = [[5], [7]]` with
the identity encoder: the claim predicts leaf values `[[5], [7]]`
(the item at logical index `i` at iteration `i`), but the code records
the item at the adjusted index, producing `[[7], [5]]`. -/
theorem C1_counterexample_value_at_logical_index :
    ((ordered_trie_root_with_encoder [[5], [7]] (fun x : List Nat => x)).map Leaf.value)
      ≠ [[5], [7]] := by decide

/-- C1 (amended): for every non-empty item sequence of length `n` and index
`i < n`, the ordered driver inserts exactly one leaf at iteration `i`; its
key is the nibble path of the RLP encoding of `j = adjust_index_for_rlp(i, n)`
and its value is the caller's encoding of the item at the adjusted index
`j` (not at the logical index `i`). In particular, for `n = 128`, iteration
127 inserts the item at logical index 0 under adjusted key 0, and iteration
0 inserts the item at logical index 1 under adjusted key 1. -/
theorem C1_ordered_leaf_per_iteration {α : Type} (items : List α)
    (encode : α → List Nat) :
    ((ordered_trie_root_with_encoder items encode).length = items.length) ∧
    (∀ i : Nat, ∀ h : i < items.length,
      (ordered_trie_root_with_encoder items encode).get? i
        = some ⟨Nibbles.unpack (rlpNat (adjust_index_for_rlp i items.length)),
            encode (items.get ⟨adjust_index_for_rlp i items.length,
              adjust_index_lt i items.length h⟩),
            false⟩) ∧
    (∀ h128 : items.length = 128,
      ∃ a0 a1 : α, items.get? 0 = some a0 ∧ items.get? 1 = some a1 ∧
        (ordered_trie_root_with_encoder items encode).get? 127
          = some ⟨Nibbles.unpack (rlpNat 0), encode a0, false⟩ ∧
        (ordered_trie_root_with_encoder items encode).get? 0
          = some ⟨Nibbles.unpack (rlpNat 1), encode a1, false⟩) := by
  refine ⟨?_, ?_, ?_⟩
  · rw [ordered_trie_root_with_encoder_eq_map]
    simp
  · intro i h
    exact ordered_get_leaf items encode i h
  · intro h128
    have h127 : (127 : Nat) < items.length := by omega
    have h0 : (0 : Nat) < items.length := by omega
    have h1' : (1 : Nat) < items.length := by omega
    have ha : adjust_index_for_rlp 127 items.length = 0 := by rw [h128]; decide
    have hb : adjust_index_for_rlp 0 items.length = 1 := by rw [h128]; decide
    refine ⟨items.get ⟨0, h0⟩, items.get ⟨1, h1'⟩,
      List.get?_eq_get h0, List.get?_eq_get h1', ?_, ?_⟩
    · rw [ordered_get_leaf items encode 127 h127]
      have hfin : (⟨adjust_index_for_rlp 127 items.length,
          adjust_index_lt 127 items.length h127⟩ : Fin items.length) = ⟨0, h0⟩ :=
        Fin.ext ha
      rw [hfin, ha]
    · rw [ordered_get_leaf items encode 0 h0]
      have hfin : (⟨adjust_index_for_rlp 0 items.length,
          adjust_index_lt 0 items.length h0⟩ : Fin items.length) = ⟨1, h1'⟩ :=
        Fin.ext hb
      rw [hfin, hb]

/-- Witness for C1 (amended) at concrete inputs: a two-item list for the
general leaf shape, and a 128-item list for the full single-byte range. -/
theorem C1_ordered_leaf_per_iteration_witness :
    ((ordered_trie_root_with_encoder [[5], [7]] (fun x : List Nat => x)).get? 0
      = some ⟨Nibbles.unpack (rlpNat (adjust_index_for_rlp 0 2)),
          (fun x : List Nat => x) ((([[5], [7]] : List (List Nat))).get
            ⟨adjust_index_for_rlp 0 2, adjust_index_lt 0 2 (by decide)⟩),
          false⟩) ∧
    (∃ a0 a1 : List Nat,
      (List.replicate 128 ([9] : List Nat)).get? 0 = some a0 ∧
      (List.replicate 128 ([9] : List Nat)).get? 1 = some a1 ∧
      (ordered_trie_root_with_encoder (List.replicate 128 ([9] : List Nat))
          (fun x => x)).get? 127
        = some ⟨Nibbles.unpack (rlpNat 0), a0, false⟩ ∧
      (ordered_trie_root_with_encoder (List.replicate 128 ([9] : List Nat))
          (fun x => x)).get? 0
        = some ⟨Nibbles.unpack (rlpNat 1), a1, false⟩) :=
  ⟨(C1_ordered_leaf_per_iteration [[5], [7]] (fun x => x)).2.1 0 (by decide),
   (C1_ordered_leaf_per_iteration (List.replicate 128 ([9] : List Nat))
     (fun x => x)).2.2 (by simp)⟩

/-! ### Claim C10 -/

/-- The index adjustment permutes `{0, ..., len - 1}`. -/
theorem adjust_range_perm (len : Nat) :
    (((List.range len).map fun i => adjust_index_for_rlp i len).Perm
      (List.range len)) := by
  have hnodup : ((List.range len).map fun i => adjust_index_for_rlp i len).Nodup := by
    refine List.Nodup.map_on ?_ (List.nodup_range len)
    intro x hx y hy hxy
    rw [List.mem_range] at hx hy
    exact adjust_index_inj len x y hx hy hxy
  have hsub : ((List.range len).map fun i => adjust_index_for_rlp i len)
      ⊆ List.range len := by
    intro x hx
    rw [List.mem_map] at hx
    obtain ⟨i, hi, rfl⟩ := hx
    rw [List.mem_range] at hi ⊢
    exact adjust_index_lt i len hi
  exact (List.subperm_of_subset hnodup hsub).perm_of_length_le (by simp)

/-- C10: for every `len >= 1` the map `i -> adjust_index_for_rlp(i, len)` is
a bijection of `{0, ..., len - 1}` onto itself (stated as: the image list of
the range is a permutation of the range); consequently the ordered driver
encodes and inserts each item exactly once and its leaf multiset is exactly
`{(RLP(j), encode(items[j])) : j < len}`. -/
theorem C10_adjust_bijection :
    (∀ len : Nat, 1 ≤ len →
      (((List.range len).map fun i => adjust_index_for_rlp i len).Perm
        (List.range len))) ∧
    (∀ (α : Type) (items : List α) (encode : α → List Nat), items ≠ [] →
      ((ordered_trie_root_with_encoder items encode).Perm
        ((List.range items.length).map fun j =>
          ⟨Nibbles.unpack (rlpNat j), orderedLeafValue items encode j, false⟩))) := by
  constructor
  · intro len _
    exact adjust_range_perm len
  · intro α items encode _
    rw [ordered_trie_root_with_encoder_eq_map]
    have hperm := List.Perm.map
      (fun j => (⟨Nibbles.unpack (rlpNat j), orderedLeafValue items encode j,
        false⟩ : Leaf))
      (adjust_range_perm items.length)
    rw [List.map_map] at hperm
    exact hperm

/-- Witness for C10 at concrete inputs: a three-element range and a
two-item list. -/
theorem C10_adjust_bijection_witness :
    (((List.range 3).map fun i => adjust_index_for_rlp i 3).Perm (List.range 3)) ∧
    ((ordered_trie_root_with_encoder [[3], [4]] (fun x : List Nat => x)).Perm
      ((List.range (([[3], [4]] : List (List Nat))).length).map fun j =>
        ⟨Nibbles.unpack (rlpNat j),
          orderedLeafValue [[3], [4]] (fun x : List Nat => x) j, false⟩)) :=
  ⟨C10_adjust_bijection.1 3 (by decide),
   C10_adjust_bijection.2 (List Nat) [[3], [4]] (fun x => x) (by decide)⟩

/-! ### Claim C4 -/

/-- Counterexample to C4 at the concrete entry `(slot 0, value 0)`: the
claim predicts the leaf value is the minimal-width big-endian encoding of
the integer (empty for 0), but the code passes the RLP encoding `[0x80]`. -/
theorem C4_counterexample_leaf_value_not_minimal_be :
    ((storage_root [(0, StorageValue.u256 0)]).map Leaf.value) ≠ [minBeBytes 0] := by
  decide

/-- C4 (amended): for every storage entry processed by `storage_root`, the
leaf key is the nibble path of the 32-byte slot key and the leaf value is
the RLP encoding of the entry's 256-bit integer value (which coincides with
the minimal-width big-endian encoding exactly for values in `[1, 127]`). -/
theorem C4_storage_leaf_shape :
    (∀ storage : List (Nat × StorageValue),
      storage_root storage = storage.map (fun e =>
        ⟨Nibbles.unpack (beFixed 32 e.1), rlpNat e.2.value, e.2.is_private⟩)) ∧
    (∀ v : Nat, 1 ≤ v → v ≤ 127 → rlpNat v = minBeBytes v) := by
  constructor
  · exact storage_root_eq_map
  · intro v h1 h2
    rw [rlpNat_small h1 h2]
    unfold minBeBytes beLen
    have h0 : ¬ v = 0 := by omega
    rw [if_neg h0]
    have hlog : Nat.log 256 v = 0 := Nat.log_eq_zero_iff.mpr (Or.inl (by omega))
    rw [hlog]
    simp [beFixed]

/-- Witness for C4 (amended) at a concrete value inside `[1, 127]`. -/
theorem C4_storage_leaf_shape_witness : rlpNat 5 = minBeBytes 5 :=
  C4_storage_leaf_shape.2 5 (by decide) (by decide)

/-! ### Claim C5 -/

/-- Sorting by key is determined by the entry multiset when the keys are
pairwise distinct. -/
theorem sortByKey_eq_of_perm {β : Type} (l l' : List (Nat × β)) (hp : l.Perm l')
    (hnd : (l.map Prod.fst).Nodup) : sortByKey l = sortByKey l' := by
  have hperm : (sortByKey l).Perm (sortByKey l') :=
    (sortByKey_perm l).trans (hp.trans (sortByKey_perm l').symm)
  have hnd' : (l'.map Prod.fst).Nodup := ((hp.map Prod.fst).nodup_iff).mp hnd
  have hne1 : (sortByKey l).Pairwise (fun a b : Nat × β => a.1 ≠ b.1) := by
    have h1 : ((sortByKey l).map Prod.fst).Nodup :=
      (((sortByKey_perm l).map Prod.fst).nodup_iff).mpr hnd
    rw [List.Nodup, List.pairwise_map] at h1
    exact h1
  have hne2 : (sortByKey l').Pairwise (fun a b : Nat × β => a.1 ≠ b.1) := by
    have h1 : ((sortByKey l').map Prod.fst).Nodup :=
      (((sortByKey_perm l').map Prod.fst).nodup_iff).mpr hnd'
    rw [List.Nodup, List.pairwise_map] at h1
    exact h1
  have hlt1 : (sortByKey l).Pairwise (fun a b : Nat × β => a.1 < b.1) :=
    ((sortByKey_pairwise_key l).and hne1).imp (fun h => by omega)
  have hlt2 : (sortByKey l').Pairwise (fun a b : Nat × β => a.1 < b.1) :=
    ((sortByKey_pairwise_key l').and hne2).imp (fun h => by omega)
  haveI : IsAntisymm (Nat × β) (fun a b => a.1 < b.1) :=
    ⟨fun a b h1 h2 => by exfalso; omega⟩
  exact List.eq_of_perm_of_sorted hperm hlt1 hlt2

/-- C5: for every list of `(key, StorageValue)` entries with pairwise
distinct keys, `storage_root_unsorted` is invariant under any permutation
of the entries. -/
theorem C5_storage_root_unsorted_perm_invariant
    (l l' : List (Nat × StorageValue)) (hp : l.Perm l')
    (hnd : (l.map Prod.fst).Nodup) :
    storage_root_unsorted l = storage_root_unsorted l' := by
  unfold storage_root_unsorted
  rw [sortByKey_eq_of_perm l l' hp hnd]

/-- Witness for C5 at a concrete two-entry list and its reversal. -/
theorem C5_storage_root_unsorted_perm_invariant_witness :
    storage_root_unsorted [(2, StorageValue.u256 1), (1, StorageValue.u256 7)]
      = storage_root_unsorted [(1, StorageValue.u256 7), (2, StorageValue.u256 1)] :=
  C5_storage_root_unsorted_perm_invariant _ _ (by decide) (by decide)

/-! ### Claim C6 -/

/-- C6: the ordered driver and `state_root` insert every leaf with privacy
flag `false`, while `storage_root` passes each entry's own flag, which is
`false` for a bare 256-bit integer and the stored boolean for an
(integer, bool) pair. -/
theorem C6_privacy_flags :
    (∀ (α : Type) (items : List α) (encode : α → List Nat),
      ∀ leaf ∈ ordered_trie_root_with_encoder items encode,
        leaf.is_private = false) ∧
    (∀ (A : Type) (encodeAccount : A → List Nat) (state : List (Nat × A)),
      ∀ leaf ∈ state_root encodeAccount state, leaf.is_private = false) ∧
    (∀ storage : List (Nat × StorageValue),
      (storage_root storage).map Leaf.is_private
        = storage.map (fun e => e.2.is_private)) ∧
    (∀ v : Nat, StorageValue.is_private (.u256 v) = false) ∧
    (∀ (v : Nat) (b : Bool), StorageValue.is_private (.pair v b) = b) := by
  refine ⟨?_, ?_, ?_, fun _ => rfl, fun _ _ => rfl⟩
  · intro α items encode leaf hmem
    rw [ordered_trie_root_with_encoder_eq_map, List.mem_map] at hmem
    obtain ⟨i, _, rfl⟩ := hmem
    rfl
  · intro A encodeAccount state leaf hmem
    rw [state_root_eq_map, List.mem_map] at hmem
    obtain ⟨p, _, rfl⟩ := hmem
    rfl
  · intro storage
    rw [storage_root_eq_map, List.map_map]
    rfl

/-! ### Claim C7 -/

/-- C7: every driver maps the empty input collection to the reserved
empty-root constant, with no failure: the ordered driver returns it from
its dedicated empty check, and the storage and state drivers produce it by
finalizing an engine with zero leaves. -/
theorem C7_empty_input_gives_empty_root :
    (∀ (α : Type) (encode : α → List Nat),
      ordered_trie_root_with_encoder ([] : List α) encode = EMPTY_ROOT_HASH) ∧
    (storage_root [] = EMPTY_ROOT_HASH) ∧
    (storage_root_unsorted [] = EMPTY_ROOT_HASH) ∧
    (∀ (A : Type) (encodeAccount : A → List Nat),
      state_root encodeAccount [] = EMPTY_ROOT_HASH) ∧
    (∀ (A : Type) (encodeAccount : A → List Nat),
      state_root_unsorted encodeAccount [] = EMPTY_ROOT_HASH) := by
  refine ⟨fun _ _ => rfl, rfl, ?_, fun _ _ => rfl, fun _ _ => ?_⟩
  · unfold storage_root_unsorted sortByKey
    rw [List.mergeSort_nil]
    rfl
  · unfold state_root_unsorted sortByKey
    rw [List.mergeSort_nil]
    rfl

/-! ### Claim C8 -/

/-- C8: `state_root_unhashed` equals `state_root_unsorted` applied to the
key-hashed pairs, and `state_root_ref_unhashed` (borrowed pairs, account
cloned at the canonical-conversion step) returns the same root as
`state_root_unhashed` on the owned pairs. -/
theorem C8_state_root_unhashed_equivalence :
    (∀ (A : Type) (keccak256 : Nat → Nat) (encodeAccount : A → List Nat)
      (pairs : List (Nat × A)),
      state_root_unhashed keccak256 encodeAccount pairs
        = state_root_unsorted encodeAccount
            (pairs.map fun p => (keccak256 p.1, p.2))) ∧
    (∀ (A : Type) (keccak256 : Nat → Nat) (encodeAccount : A → List Nat)
      (pairs : List (Nat × A)),
      state_root_ref_unhashed keccak256 encodeAccount pairs
        = state_root_unhashed keccak256 encodeAccount pairs) := by
  exact ⟨fun _ _ _ _ => rfl, fun _ _ _ _ => rfl⟩

/-! ### Claim C9 -/

/-- C9: on an input whose two consecutive keys are not strictly ascending
(`5` then `3`), `storage_root` hits the engine's ordering contract and
aborts (modelled as `none`, not a typed error value); in general a call
either aborts or yields the complete root. -/
theorem C9_storage_root_aborts_on_unsorted_input :
    (storage_root_checked [(5, StorageValue.u256 1), (3, StorageValue.u256 2)]
      = none) ∧
    (∀ storage : List (Nat × StorageValue),
      storage_root_checked storage = none ∨
      storage_root_checked storage = some (storage_root storage)) := by
  constructor
  · decide
  · intro storage
    unfold storage_root_checked
    by_cases h : pathsStrictAscending (storage_root storage) = true
    · right; simp [h]
    · left; simp [h]

/-- Witness for C6 at concrete leaves of a one-item ordered trie and a
one-account state trie. -/
theorem C6_privacy_flags_witness :
    (⟨[8, 0], [1], false⟩ : Leaf).is_private = false ∧
    (⟨Nibbles.unpack (beFixed 32 0), [2], false⟩ : Leaf).is_private = false :=
  ⟨C6_privacy_flags.1 (List Nat) [[1]] (fun x => x) ⟨[8, 0], [1], false⟩ (by decide),
   C6_privacy_flags.2.1 Nat (fun _ => [2]) [(0, 0)]
     ⟨Nibbles.unpack (beFixed 32 0), [2], false⟩ (by decide)⟩
